import Mathlib

/-!
Verification of the profile merge engine (profile comparison module).

The JavaScript source under verification exposes `mergeProfiles`,
`mergeCategories`, `adjustCategories` and `adjustNullableCategories`.
Times are JavaScript numbers; we embed them as rationals (`ℚ`).
Fallible code (JS `throw`) is embedded with `Except MergeError`.
The externally supplied utilities (`getEmptyProfile`,
`adjustSampleTimestamps`, `adjustMarkerTimestamps`,
`filterThreadSamplesToRange`, `getTimeRangeForThread`,
`getTimeRangeIncludingAllThreads`) are not part of the visible source;
they are modelled from the spec, as marked on each definition.
-/

/-- A category: identity for merge purposes is `name`; `color` stands for
the other display attributes that are opaque to the merge engine. -/
structure Category where
  name : String
  color : String
deriving DecidableEq

abbrev CategoryList := List Category

/-- A translation map from old category index to new category index,
embedded as an association list (insertion order preserved, as in a JS
`Map`; keys are inserted at most once by `mergeCategories`). -/
abbrev TranslationMap := List (Nat × Nat)

/-- Lookup in a translation map: the JS `Map.prototype.get`, returning
the value of the first matching key or `none`. -/
def tmGet : TranslationMap → Nat → Option Nat
  | [], _ => none
  | (k, v) :: rest, j => if k = j then some v else tmGet rest j

/-- Lookup in the string-keyed `insertedCategories` map. -/
def insGet : List (String × Nat) → String → Option Nat
  | [], _ => none
  | (k, v) :: rest, s => if k = s then some v else insGet rest s

/-- Inner loop of `mergeCategories`: the `categories.forEach((category, i))`
body, processing one input's category list starting at index `i`, with the
accumulated merged list `newCategories`, the name map `insertedCategories`
and this input's translation map `translationMap` built so far. -/
def mergeCategoriesInner (categories : CategoryList) (i : Nat)
    (newCategories : CategoryList) (insertedCategories : List (String × Nat))
    (translationMap : TranslationMap) :
    CategoryList × List (String × Nat) × TranslationMap :=
  match categories with
  | [] => (newCategories, insertedCategories, translationMap)
  | category :: rest =>
    match insGet insertedCategories category.name with
    | some insertedCategoryIndex =>
      mergeCategoriesInner rest (i + 1) newCategories insertedCategories
        (translationMap ++ [(i, insertedCategoryIndex)])
    | none =>
      mergeCategoriesInner rest (i + 1) (newCategories ++ [category])
        ((category.name, newCategories.length) :: insertedCategories)
        (translationMap ++ [(i, newCategories.length)])

/-- Outer loop of `mergeCategories`: the `categoriesPerThread.forEach`
loop over the input category lists. -/
def mergeCategoriesOuter (categoriesPerThread : List CategoryList)
    (newCategories : CategoryList) (insertedCategories : List (String × Nat)) :
    CategoryList × List TranslationMap :=
  match categoriesPerThread with
  | [] => (newCategories, [])
  | categories :: rest =>
    let inner := mergeCategoriesInner categories 0 newCategories insertedCategories []
    let outer := mergeCategoriesOuter rest inner.1 inner.2.1
    (outer.1, inner.2.2 :: outer.2)

/-- Merges several categories lists into one, resolving duplicates if
necessary. Returns the merged list and one translation map per input. -/
def mergeCategories (categoriesPerThread : List CategoryList) :
    CategoryList × List TranslationMap :=
  mergeCategoriesOuter categoriesPerThread [] []

/-- The errors the merge can raise. `noSelectedThread i` is the explicit
caller-contract error thrown when profile `i` has no selected thread.
`missingThread i` models the JS `TypeError` raised when an unguarded
array access yielded `undefined` for input `i` and a property of that
missing value is then read. `categoryNotFound c` models the error thrown
by the index remappers for a category index `c` absent from the
translation map. -/
inductive MergeError where
  | noSelectedThread (i : Nat)
  | missingThread (i : Nat)
  | categoryNotFound (c : Nat)
deriving DecidableEq

/-- Adjusts the category indices in a category list using a translation
map; throws on a missing entry. -/
def adjustCategories : List Nat → TranslationMap → Except MergeError (List Nat)
  | [], _ => .ok []
  | category :: rest, translationMap =>
    match tmGet translationMap category with
    | none => .error (.categoryNotFound category)
    | some result =>
      match adjustCategories rest translationMap with
      | .error e => .error e
      | .ok others => .ok (result :: others)

/-- Adjusts the category indices in a nullable category list using a
translation map; `null` entries pass through without a lookup. -/
def adjustNullableCategories : List (Option Nat) → TranslationMap →
    Except MergeError (List (Option Nat))
  | [], _ => .ok []
  | none :: rest, translationMap =>
    match adjustNullableCategories rest translationMap with
    | .error e => .error e
    | .ok others => .ok (none :: others)
  | some category :: rest, translationMap =>
    match tmGet translationMap category with
    | none => .error (.categoryNotFound category)
    | some result =>
      match adjustNullableCategories rest translationMap with
      | .error e => .error e
      | .ok others => .ok (some result :: others)

/-- The samples table of a thread; only the time column matters to the
merge engine. -/
structure SamplesTable where
  time : List ℚ
deriving DecidableEq

/-- The markers table of a thread; only the time column matters to the
merge engine. -/
structure MarkersTable where
  time : List ℚ
deriving DecidableEq

/-- The stack table of a thread: a category index per stack. -/
structure StackTable where
  category : List Nat
deriving DecidableEq

/-- The frame table of a thread: a nullable category index per frame. -/
structure FrameTable where
  category : List (Option Nat)
deriving DecidableEq

/-- A thread. `processName` is a string field; the absent value is the
empty string, which is falsy in JS (`thread.processName || thread.name`). -/
structure Thread where
  pid : String
  processName : String
  name : String
  registerTime : ℚ
  unregisterTime : Option ℚ
  processStartupTime : ℚ
  processShutdownTime : Option ℚ
  stackTable : StackTable
  frameTable : FrameTable
  samples : SamplesTable
  markers : MarkersTable
deriving DecidableEq

/-- Profile metadata: sampling interval and the category list. -/
structure ProfileMeta where
  interval : ℚ
  categories : CategoryList
deriving DecidableEq

/-- A profile: metadata plus an ordered list of threads. -/
structure Profile where
  meta : ProfileMeta
  threads : List Thread
deriving DecidableEq

/-- A committed range; `endT` embeds the JS field `end` (a Lean keyword). -/
structure CommittedRange where
  start : ℚ
  endT : ℚ
deriving DecidableEq

/-- A time range, as returned by the range utilities; `endT` embeds `end`. -/
structure TimeRange where
  start : ℚ
  endT : ℚ
deriving DecidableEq

/-- A transform stack is opaque to the merge engine; we embed it as a
marker string. -/
abbrev TransformStack := String

/-- The per-profile part of a view state (`profileSpecific`).
`committedRanges` is nullable in the source (`committedRanges && ...`). -/
structure ProfileSpecificState where
  selectedThread : Option Nat
  transforms : List TransformStack
  implementation : String
  committedRanges : Option (List CommittedRange)
deriving DecidableEq

/-- Modelled from the spec: `createEmptyProfile` (the source's
`getEmptyProfile`) returns a correctly defaulted output container with an
empty thread list and default meta fields, before threads are appended. -/
def getEmptyProfile : Profile :=
  { meta := { interval := 1, categories := [] }, threads := [] }

/-- Modelled from the spec: `adjustSampleTimestamps` shifts all sample
times by the given offset. -/
def adjustSampleTimestamps (samples : SamplesTable) (delta : ℚ) : SamplesTable :=
  { samples with time := samples.time.map (fun t => t + delta) }

/-- Modelled from the spec: `adjustMarkerTimestamps` shifts all marker
times by the given offset. -/
def adjustMarkerTimestamps (markers : MarkersTable) (delta : ℚ) : MarkersTable :=
  { markers with time := markers.time.map (fun t => t + delta) }

/-- Modelled from the spec: `filterThreadSamplesToRange` returns a thread
whose samples and markers are restricted to the closed-open interval,
preserving all other fields. -/
def filterThreadSamplesToRange (thread : Thread) (rangeStart rangeEnd : ℚ) : Thread :=
  { thread with
    samples := { thread.samples with
      time := thread.samples.time.filter (fun t => rangeStart ≤ t ∧ t < rangeEnd) }
    markers := { thread.markers with
      time := thread.markers.time.filter (fun t => rangeStart ≤ t ∧ t < rangeEnd) } }

/-- Modelled from the spec: `getTimeRangeForThread` returns the thread's
own active absolute time bounds, accounting for the sampling interval at
the end edge (sample times are an ordered sequence, so the first is the
minimum and the last the maximum). -/
def getTimeRangeForThread (thread : Thread) (interval : ℚ) : TimeRange :=
  { start := thread.samples.time.headD 0
    endT := thread.samples.time.getLastD 0 + interval }

/-- Models the JS `Math.min(...list)` over a spread array; the source
only applies it to non-empty lists (the empty case would be `Infinity`,
which has no rational counterpart and is defaulted here). -/
def jsMinList : List ℚ → ℚ
  | [] => 0
  | x :: xs => xs.foldl min x

/-- Modelled from the spec: `getTimeRangeIncludingAllThreads` returns the
absolute time bounds across every thread in a profile; only `start` (the
earliest sample time across all threads) is consumed by the merge. -/
def getTimeRangeIncludingAllThreads (profile : Profile) : TimeRange :=
  { start := jsMinList (profile.threads.map (fun t => t.samples.time.headD 0))
    endT := jsMinList (profile.threads.map (fun t => t.samples.time.getLastD 0)) }

/-- The decimal digit character for `d < 10`, as produced by JS number
formatting. -/
def decChar (d : Nat) : Char := Char.ofNat (48 + d)

/-- Fuel-based big-endian decimal digit list of a natural number; the
fuel argument makes the recursion structural. -/
def natReprAux : Nat → Nat → List Char
  | 0, _ => []
  | fuel + 1, n =>
    if n < 10 then [decChar n]
    else natReprAux fuel (n / 10) ++ [decChar (n % 10)]

/-- Decimal rendering of a natural number, as interpolated by the JS
template literals of the source. -/
def natRepr (n : Nat) : String := String.mk (natReprAux (n + 1) n)

/-- The range-filtering step of the per-input loop: pop at most the top
entry of this input's committed-range stack; when present, convert it to
absolute time using `zeroAt` (earliest time across all threads of the
input profile) and crop the selected thread, otherwise pass the thread
through unfiltered. -/
def threadAfterRange (profile : Profile) (profileSpecific : ProfileSpecificState)
    (thread : Thread) : Thread :=
  let zeroAt := (getTimeRangeIncludingAllThreads profile).start
  match profileSpecific.committedRanges.bind List.getLast? with
  | some committedRange =>
    filterThreadSamplesToRange thread
      (committedRange.start + zeroAt) (committedRange.endT + zeroAt)
  | none => thread

/-- The identity-rewriting step of the per-input loop: reset the thread's
pid and process name from the 1-based ordinal of its input. -/
def threadAfterIdentity (i : Nat) (thread : Thread) : Thread :=
  { thread with
    pid := thread.pid ++ " from profile " ++ natRepr (i + 1)
    processName := "Profile " ++ natRepr (i + 1) ++ ": " ++
      (if thread.processName = "" then thread.name else thread.processName) }

/-- The timestamp-adjustment step of the per-input loop: shift every
time-bearing field by the negation of the thread's own first sample time
(the source reads `thread.samples.time[0]`; its samples are non-empty in
every behavior the spec describes, and `headD 0` stands for that read). -/
def threadAfterTimeShift (thread : Thread) : Thread :=
  let startTimeAdjustment := -(thread.samples.time.headD 0)
  { thread with
    samples := adjustSampleTimestamps thread.samples startTimeAdjustment
    markers := adjustMarkerTimestamps thread.markers startTimeAdjustment
    registerTime := thread.registerTime + startTimeAdjustment
    processStartupTime := thread.processStartupTime + startTimeAdjustment
    processShutdownTime := thread.processShutdownTime.map
      (fun t => t + startTimeAdjustment)
    unregisterTime := thread.unregisterTime.map
      (fun t => t + startTimeAdjustment) }

/-- The end-synthesis step of the per-input loop: when both shutdown and
unregister times are null, synthesize `unregisterTime` as the end of the
thread's own active time range, computed with the input profile's
interval. -/
def threadAfterEndSynthesis (interval : ℚ) (thread : Thread) : Thread :=
  if thread.processShutdownTime = none ∧ thread.unregisterTime = none then
    { thread with
      unregisterTime := some (getTimeRangeForThread thread interval).endT }
  else thread

/-- The body of the per-input loop of `mergeProfiles` once the selected
thread has been fetched: category remapping (which can throw), then range
filtering, identity rewriting, timestamp adjustment and end synthesis, in
the source's order. -/
def mergeThreadForProfile (i : Nat) (profile : Profile)
    (profileSpecific : ProfileSpecificState) (translationMap : TranslationMap)
    (thread : Thread) : Except MergeError Thread :=
  match adjustCategories thread.stackTable.category translationMap with
  | .error e => .error e
  | .ok stackCategories =>
    match adjustNullableCategories thread.frameTable.category translationMap with
    | .error e => .error e
    | .ok frameCategories =>
      .ok (threadAfterEndSynthesis profile.meta.interval
        (threadAfterTimeShift
          (threadAfterIdentity i
            (threadAfterRange profile profileSpecific
              { thread with
                stackTable := { thread.stackTable with category := stackCategories }
                frameTable := { thread.frameTable with category := frameCategories } }))))

/-- The three per-input accumulators of the merge loop: the merged
threads and the per-input metadata captured for the caller. -/
structure MergeAccum where
  threads : List Thread
  transformStacks : List (Option TransformStack)
  implementationFilters : List String
deriving DecidableEq

/-- The `for` loop of `mergeProfiles` over the view states, carried out
at loop counter `i`: selects each profile's thread, validates the
selected-thread precondition, processes the thread and accumulates the
merged threads, transform stacks and implementation filters. An
out-of-bounds `profiles[i]` or `profile.threads[selectedThreadIndex]`
yields `undefined` in JS and a `TypeError` at the remapping step, which
`MergeError.missingThread` embeds. -/
def mergeLoop (profiles : List Profile) (translationMaps : List TranslationMap) :
    Nat → List ProfileSpecificState → Except MergeError MergeAccum
  | _, [] => .ok ⟨[], [], []⟩
  | i, profileSpecific :: rest =>
    match profileSpecific.selectedThread with
    | none => .error (.noSelectedThread i)
    | some selectedThreadIndex =>
      match profiles[i]? with
      | none => .error (.missingThread i)
      | some profile =>
        match profile.threads[selectedThreadIndex]? with
        | none => .error (.missingThread i)
        | some thread =>
          match mergeThreadForProfile i profile profileSpecific
              ((translationMaps.getD i [])) thread with
          | .error e => .error e
          | .ok mergedThread =>
            match mergeLoop profiles translationMaps (i + 1) rest with
            | .error e => .error e
            | .ok acc =>
              .ok ⟨mergedThread :: acc.threads,
                profileSpecific.transforms[selectedThreadIndex]? :: acc.transformStacks,
                profileSpecific.implementation :: acc.implementationFilters⟩

/-- The result record of `mergeProfiles`. -/
structure MergeResult where
  profile : Profile
  transformStacks : List (Option TransformStack)
  implementationFilters : List String
deriving DecidableEq

/-- The merge orchestrator: builds the result profile from the empty
profile, sets its interval to the minimum of the input intervals and its
categories to the merged category list, then runs the per-input loop. -/
def mergeProfiles (profiles : List Profile)
    (profileStates : List ProfileSpecificState) : Except MergeError MergeResult :=
  let resultInterval := jsMinList (profiles.map (fun p => p.meta.interval))
  let merged := mergeCategories (profiles.map (fun p => p.meta.categories))
  match mergeLoop profiles merged.2 0 profileStates with
  | .error e => .error e
  | .ok acc =>
    .ok { profile := { getEmptyProfile with
            meta := { interval := resultInterval, categories := merged.1 }
            threads := acc.threads }
          transformStacks := acc.transformStacks
          implementationFilters := acc.implementationFilters }

/-! Concrete sample data used to instantiate the verified statements. -/

/-- A sample input thread with pid `"1234"`, no process name, samples
starting at time 0 and no recorded end. -/
def sampleThread : Thread :=
  { pid := "1234", processName := "", name := "GeckoMain",
    registerTime := 0, unregisterTime := none,
    processStartupTime := 0, processShutdownTime := none,
    stackTable := { category := [] }, frameTable := { category := [] },
    samples := { time := [0] }, markers := { time := [] } }

/-- A sample view state selecting thread 0, with an empty committed-range
stack. -/
def sampleState : ProfileSpecificState :=
  { selectedThread := some 0, transforms := ["ts"], implementation := "combined",
    committedRanges := some [] }

/-- A sample profile with sampling interval 1. -/
def sampleProfileA : Profile :=
  { meta := { interval := 1, categories := [] }, threads := [sampleThread] }

/-- A sample profile with sampling interval 1/2. -/
def sampleProfileB : Profile :=
  { meta := { interval := 1/2, categories := [] }, threads := [sampleThread] }

/-- The merged thread produced from `sampleProfileA` at ordinal 1. -/
def sampleMergedThreadA : Thread :=
  { pid := "1234 from profile 1", processName := "Profile 1: GeckoMain",
    name := "GeckoMain", registerTime := 0, unregisterTime := some 1,
    processStartupTime := 0, processShutdownTime := none,
    stackTable := { category := [] }, frameTable := { category := [] },
    samples := { time := [0] }, markers := { time := [] } }

/-- The merged thread produced from `sampleProfileB` at ordinal 2. -/
def sampleMergedThreadB : Thread :=
  { pid := "1234 from profile 2", processName := "Profile 2: GeckoMain",
    name := "GeckoMain", registerTime := 0, unregisterTime := some (1/2),
    processStartupTime := 0, processShutdownTime := none,
    stackTable := { category := [] }, frameTable := { category := [] },
    samples := { time := [0] }, markers := { time := [] } }

/-- Example category `A`. -/
def catA : Category := { name := "A", color := "blue" }

/-- Example category `B` as it appears in the first input list. -/
def catB1 : Category := { name := "B", color := "green" }

/-- Example category `B` as it appears in the second input list, with a
different distinguishing attribute. -/
def catB2 : Category := { name := "B", color := "red" }

/-- Example category `C`. -/
def catC : Category := { name := "C", color := "yellow" }

/-- A sample committed range. -/
def sampleCommittedRange : CommittedRange := { start := 0, endT := 10 }

/-- A sample view state whose committed-range stack holds one entry. -/
def sampleRangeState : ProfileSpecificState :=
  { sampleState with committedRanges := some [sampleCommittedRange] }

/-- A view state with no selected thread. -/
def sampleStateNoSelection : ProfileSpecificState :=
  { sampleState with selectedThread := none }

/-- A view state selecting a thread index that is out of bounds for the
sample profiles. -/
def sampleStateOutOfBounds : ProfileSpecificState :=
  { sampleState with selectedThread := some 5 }

/-- The invariant of C8 for one thread: every stack category index and
every non-null frame category index is below the category-list length. -/
def threadCategoriesOk (t : Thread) (n : Nat) : Prop :=
  (∀ c ∈ t.stackTable.category, c < n) ∧
  (∀ c : Nat, some c ∈ t.frameTable.category → c < n)

/-- Evaluation of a successful two-profile merge on the sample data. -/
theorem sampleMerge_eval :
    mergeProfiles [sampleProfileA, sampleProfileB] [sampleState, sampleState] =
      .ok { profile := { meta := { interval := 1/2, categories := [] },
                         threads := [sampleMergedThreadA, sampleMergedThreadB] },
            transformStacks := [some "ts", some "ts"],
            implementationFilters := ["combined", "combined"] } := by
  norm_num [mergeProfiles, mergeCategories, mergeCategoriesOuter, mergeCategoriesInner,
    mergeLoop, mergeThreadForProfile, adjustCategories, adjustNullableCategories,
    threadAfterRange, threadAfterIdentity, threadAfterTimeShift, threadAfterEndSynthesis,
    getTimeRangeIncludingAllThreads, getTimeRangeForThread, filterThreadSamplesToRange,
    adjustSampleTimestamps, adjustMarkerTimestamps, jsMinList, getEmptyProfile,
    sampleProfileA, sampleProfileB, sampleState, sampleThread,
    sampleMergedThreadA, sampleMergedThreadB,
    natRepr, natReprAux, decChar, tmGet, insGet]
  decide

/-! Category-merge lemmas. -/

/-- The merged list grows by at most one entry per processed category. -/
theorem mergeCategoriesInner_length (categories : CategoryList) :
    ∀ i newCategories insertedCategories translationMap,
    (mergeCategoriesInner categories i newCategories insertedCategories
      translationMap).1.length ≤ newCategories.length + categories.length := by
  induction categories with
  | nil => intro i nc ins tm; simp [mergeCategoriesInner]
  | cons c rest ih =>
    intro i nc ins tm
    rw [mergeCategoriesInner]
    cases h : insGet ins c.name with
    | some idx =>
      have := ih (i + 1) nc ins (tm ++ [(i, idx)])
      simpa using Nat.le_trans this (by omega)
    | none =>
      have := ih (i + 1) (nc ++ [c]) ((c.name, nc.length) :: ins)
        (tm ++ [(i, nc.length)])
      simp only [List.length_append, List.length_cons, List.length_nil] at this
      simpa using Nat.le_trans this (by omega)

/-- The merged list's length is bounded by the carried length plus the
sum of the remaining input lengths. -/
theorem mergeCategoriesOuter_length (lists : List CategoryList) :
    ∀ newCategories insertedCategories,
    (mergeCategoriesOuter lists newCategories insertedCategories).1.length ≤
      newCategories.length + (lists.map List.length).sum := by
  induction lists with
  | nil => intro nc ins; simp [mergeCategoriesOuter]
  | cons cats rest ih =>
    intro nc ins
    rw [mergeCategoriesOuter]
    have h1 := mergeCategoriesInner_length cats 0 nc ins []
    have h2 := ih (mergeCategoriesInner cats 0 nc ins []).1
      (mergeCategoriesInner cats 0 nc ins []).2.1
    simp only [List.map_cons, List.sum_cons]
    omega

/-- C1: `mergeCategories` scans inputs in order, keeps the first category
of each name verbatim and maps later duplicates to the first-seen index;
merging `[A,B]` and `[B,C]` (with `B`'s attributes differing between the
two inputs) yields `[A,B,C]` keeping the first `B`'s attributes, with
translation maps `{0→0,1→1}` and `{0→1,1→2}`; the merged length is at
most the sum of the input lengths. -/
theorem mergeCategories_dedup :
    (∀ lists : List CategoryList,
      (mergeCategories lists).1.length ≤ (lists.map List.length).sum)
    ∧ mergeCategories [[catA, catB1], [catB2, catC]] =
        ([catA, catB1, catC], [[(0, 0), (1, 1)], [(0, 1), (1, 2)]]) := by
  constructor
  · intro lists
    have h := mergeCategoriesOuter_length lists [] []
    simpa [mergeCategories] using h
  · decide

/-! Index-remapping lemmas. -/

/-- When every entry is in the translation map's domain, `adjustCategories`
succeeds and returns exactly the mapped values. -/
theorem adjustCategories_ok (cats : List Nat) (tm : TranslationMap)
    (h : ∀ c ∈ cats, (tmGet tm c).isSome) :
    adjustCategories cats tm = .ok (cats.map (fun c => (tmGet tm c).getD 0)) := by
  induction cats with
  | nil => simp [adjustCategories]
  | cons c rest ih =>
    obtain ⟨v, hv⟩ := Option.isSome_iff_exists.mp (h c (by simp))
    rw [adjustCategories, hv, ih (fun x hx => h x (by simp [hx]))]
    simp [hv]

/-- When some entry is outside the translation map's domain,
`adjustCategories` fails with an error naming an offending entry. -/
theorem adjustCategories_error (cats : List Nat) (tm : TranslationMap)
    (h : ∃ c ∈ cats, tmGet tm c = none) :
    ∃ c0 ∈ cats, tmGet tm c0 = none ∧
      adjustCategories cats tm = .error (.categoryNotFound c0) := by
  induction cats with
  | nil => simp at h
  | cons c rest ih =>
    cases hc : tmGet tm c with
    | none => exact ⟨c, by simp, hc, by rw [adjustCategories, hc]⟩
    | some v =>
      have hrest : ∃ x ∈ rest, tmGet tm x = none := by
        obtain ⟨x, hx, hxn⟩ := h
        rcases List.mem_cons.mp hx with rfl | hx2
        · rw [hc] at hxn; exact absurd hxn (by simp)
        · exact ⟨x, hx2, hxn⟩
      obtain ⟨c0, hc0, hc0n, hc0e⟩ := ih hrest
      exact ⟨c0, by simp [hc0], hc0n, by rw [adjustCategories, hc, hc0e]⟩

/-- When every non-null entry is in the translation map's domain,
`adjustNullableCategories` succeeds, mapping `null` to `null` and every
other entry through the table. -/
theorem adjustNullableCategories_ok (cats : List (Option Nat)) (tm : TranslationMap)
    (h : ∀ c, some c ∈ cats → (tmGet tm c).isSome) :
    adjustNullableCategories cats tm =
      .ok (cats.map (fun oc => oc.bind (tmGet tm))) := by
  induction cats with
  | nil => simp [adjustNullableCategories]
  | cons oc rest ih =>
    have hrest : ∀ c, some c ∈ rest → (tmGet tm c).isSome :=
      fun c hc => h c (by simp [hc])
    cases oc with
    | none => rw [adjustNullableCategories, ih hrest]; simp
    | some c =>
      obtain ⟨v, hv⟩ := Option.isSome_iff_exists.mp (h c (by simp))
      rw [adjustNullableCategories, hv, ih hrest]
      simp [hv]

/-- C2: remapping returns exactly the mapped value for every index in the
translation map's domain; an index outside the domain makes the operation
fail with an explicit error identifying an offending index rather than
producing a default; and the nullable variant maps `null` entries to
`null` without consulting the table. -/
theorem remap_totality :
    (∀ (cats : List Nat) (tm : TranslationMap),
      (∀ c ∈ cats, (tmGet tm c).isSome) →
      adjustCategories cats tm = .ok (cats.map (fun c => (tmGet tm c).getD 0)))
    ∧ (∀ (cats : List Nat) (tm : TranslationMap),
      (∃ c ∈ cats, tmGet tm c = none) →
      ∃ c0 ∈ cats, tmGet tm c0 = none ∧
        adjustCategories cats tm = .error (.categoryNotFound c0))
    ∧ (∀ (cats : List (Option Nat)) (tm : TranslationMap),
      (∀ c, some c ∈ cats → (tmGet tm c).isSome) →
      adjustNullableCategories cats tm =
        .ok (cats.map (fun oc => oc.bind (tmGet tm)))) :=
  ⟨adjustCategories_ok, adjustCategories_error, adjustNullableCategories_ok⟩

/-- Witness for C2 at concrete inputs. -/
theorem remap_totality_witness :
    adjustCategories [0, 1] [(0, 3), (1, 4)] = .ok [3, 4]
    ∧ adjustCategories [7] [(0, 3)] = .error (.categoryNotFound 7)
    ∧ adjustNullableCategories [none, some 0] [(0, 5)] = .ok [none, some 5] := by
  refine ⟨?_, ?_, ?_⟩
  · have h := remap_totality.1 [0, 1] [(0, 3), (1, 4)] (by decide)
    simpa [tmGet] using h
  · have h := remap_totality.2.1 [7] [(0, 3)] ⟨7, by simp, by decide⟩
    obtain ⟨c0, hc0, _, he⟩ := h
    simp only [List.mem_singleton] at hc0
    rwa [hc0] at he
  · have h := remap_totality.2.2 [none, some 0] [(0, 5)]
      (by intro c hc; simp at hc; subst hc; decide)
    simpa [tmGet] using h

/-! Decimal-rendering lemmas used for pid uniqueness. -/

/-- The digit character of `d < 10` decodes back to `d`. -/
theorem decChar_toNat (d : Nat) (h : d < 10) : (decChar d).toNat = 48 + d := by
  interval_cases d <;> decide

/-- Folding the decimal digits of `n` back into a number recovers `n`. -/
theorem natReprAux_foldl : ∀ (fuel n : Nat), n < fuel → ∀ a : Nat,
    List.foldl (fun acc c => acc * 10 + (c.toNat - 48)) a (natReprAux fuel n) =
      a * 10 ^ (natReprAux fuel n).length + n := by
  intro fuel
  induction fuel with
  | zero => intro n h a; exact absurd h (Nat.not_lt_zero n)
  | succ fuel ih =>
    intro n h a
    rw [natReprAux]
    by_cases h10 : n < 10
    · rw [if_pos h10]
      have hd := decChar_toNat n h10
      simp only [List.foldl_cons, List.foldl_nil, List.length_singleton, pow_one]
      omega
    · rw [if_neg h10]
      have hdiv : n / 10 < fuel := by omega
      rw [List.foldl_append, ih (n / 10) hdiv a]
      have hm : (decChar (n % 10)).toNat = 48 + n % 10 :=
        decChar_toNat (n % 10) (Nat.mod_lt _ (by omega))
      simp only [List.foldl_cons, List.foldl_nil, List.length_append,
        List.length_singleton, pow_succ, ← Nat.mul_assoc]
      rw [hm]
      have hnm := Nat.div_add_mod n 10
      generalize a * 10 ^ (natReprAux fuel (n / 10)).length = x
      omega

/-- The decimal rendering of a natural number is injective. -/
theorem natRepr_injective : Function.Injective natRepr := by
  intro m n h
  have hlist : natReprAux (m + 1) m = natReprAux (n + 1) n := congrArg String.data h
  have hm := natReprAux_foldl (m + 1) m (by omega) 0
  have hn := natReprAux_foldl (n + 1) n (by omega) 0
  rw [hlist] at hm
  omega

/-- Cancellation of a shared prefix between two string concatenations. -/
theorem string_append_left_cancel (a b c : String) (h : a ++ b = a ++ c) : b = c := by
  have hd := congrArg String.data h
  simp only [String.data_append] at hd
  exact String.ext (List.append_cancel_left hd)

/-- C6: the identity rewrite appends the 1-based ordinal to the pid and
prefixes the process name with the ordinal, falling back to the thread
name when the process name is absent; distinct ordinals always yield
distinct pids even for identical original pids, as in the two merged
`"1234"` pids. -/
theorem identity_uniqueness :
    (∀ (i : Nat) (t : Thread),
      (threadAfterIdentity i t).pid = t.pid ++ " from profile " ++ natRepr (i + 1)
      ∧ (threadAfterIdentity i t).processName =
          "Profile " ++ natRepr (i + 1) ++ ": " ++
            (if t.processName = "" then t.name else t.processName))
    ∧ (∀ (i j : Nat) (t u : Thread), t.pid = u.pid → i ≠ j →
        (threadAfterIdentity i t).pid ≠ (threadAfterIdentity j u).pid)
    ∧ (threadAfterIdentity 0 sampleThread).pid = "1234 from profile 1"
    ∧ (threadAfterIdentity 1 sampleThread).pid = "1234 from profile 2" := by
  refine ⟨fun i t => ⟨rfl, rfl⟩, ?_, by decide, by decide⟩
  intro i j t u hpid hij hcon
  simp only [threadAfterIdentity] at hcon
  rw [hpid] at hcon
  have h2 := string_append_left_cancel _ _ _ hcon
  exact hij (by have := natRepr_injective h2; omega)

/-- Witness for C6: the two sample ordinals give distinct pids. -/
theorem identity_uniqueness_witness :
    (threadAfterIdentity 0 sampleThread).pid ≠ (threadAfterIdentity 1 sampleThread).pid :=
  identity_uniqueness.2.1 0 1 sampleThread sampleThread rfl (by decide)

/-- C4: per input, at most the top committed range is consumed: a missing
or empty stack passes the thread through unfiltered, and a non-empty
stack crops the selected thread to the popped range shifted by `zeroAt`,
the earliest time across all threads of that input profile. -/
theorem range_filter_adapter :
    ∀ (profile : Profile) (ps : ProfileSpecificState) (t : Thread),
      (ps.committedRanges = none → threadAfterRange profile ps t = t)
      ∧ (ps.committedRanges = some [] → threadAfterRange profile ps t = t)
      ∧ (∀ (l : List CommittedRange) (r : CommittedRange),
          ps.committedRanges = some l → l.getLast? = some r →
          threadAfterRange profile ps t =
            filterThreadSamplesToRange t
              (r.start + (getTimeRangeIncludingAllThreads profile).start)
              (r.endT + (getTimeRangeIncludingAllThreads profile).start)) := by
  intro profile ps t
  refine ⟨?_, ?_, ?_⟩
  · intro h; simp [threadAfterRange, h]
  · intro h; simp [threadAfterRange, h]
  · intro l r hl hr; simp [threadAfterRange, hl, hr]

/-- Witness for C4: the empty stack passes through; a singleton stack
crops using the popped range and the sample profile's zero point. -/
theorem range_filter_adapter_witness :
    threadAfterRange sampleProfileA sampleState sampleThread = sampleThread
    ∧ threadAfterRange sampleProfileA sampleRangeState sampleThread =
        filterThreadSamplesToRange sampleThread
          (sampleCommittedRange.start +
            (getTimeRangeIncludingAllThreads sampleProfileA).start)
          (sampleCommittedRange.endT +
            (getTimeRangeIncludingAllThreads sampleProfileA).start) :=
  ⟨(range_filter_adapter sampleProfileA sampleState sampleThread).2.1 rfl,
   (range_filter_adapter sampleProfileA sampleRangeState sampleThread).2.2
     [sampleCommittedRange] sampleCommittedRange rfl rfl⟩

/-- A successfully merged thread is the end-synthesis step applied with
the input profile's own interval to the shifted thread. -/
theorem mergeThreadForProfile_ok_shape (i : Nat) (profile : Profile)
    (ps : ProfileSpecificState) (tm : TranslationMap) (thread t' : Thread)
    (h : mergeThreadForProfile i profile ps tm thread = .ok t') :
    ∃ u, t' = threadAfterEndSynthesis profile.meta.interval (threadAfterTimeShift u) := by
  rw [mergeThreadForProfile] at h
  cases h1 : adjustCategories thread.stackTable.category tm with
  | error e => rw [h1] at h; exact absurd h (by simp)
  | ok stackCategories =>
    rw [h1] at h
    cases h2 : adjustNullableCategories thread.frameTable.category tm with
    | error e => rw [h2] at h; exact absurd h (by simp)
    | ok frameCategories =>
      rw [h2] at h
      simp only [Except.ok.injEq] at h
      exact ⟨_, h.symm⟩

/-- C5: when both end fields are null after shifting, `unregisterTime` is
synthesized as the thread's own active-range end and is non-null; when
either is already set, the thread is left untouched; and a merged thread
is produced by the synthesis step applied with the input profile's
interval. -/
theorem end_synthesis :
    (∀ (interval : ℚ) (t : Thread),
      (t.processShutdownTime = none → t.unregisterTime = none →
        threadAfterEndSynthesis interval t =
          { t with unregisterTime := some (getTimeRangeForThread t interval).endT }
        ∧ (threadAfterEndSynthesis interval t).unregisterTime ≠ none)
      ∧ (t.processShutdownTime ≠ none ∨ t.unregisterTime ≠ none →
        threadAfterEndSynthesis interval t = t))
    ∧ (∀ (i : Nat) (profile : Profile) (ps : ProfileSpecificState)
        (tm : TranslationMap) (thread t' : Thread),
        mergeThreadForProfile i profile ps tm thread = .ok t' →
        ∃ u, t' = threadAfterEndSynthesis profile.meta.interval
          (threadAfterTimeShift u)) := by
  refine ⟨fun interval t => ⟨?_, ?_⟩, mergeThreadForProfile_ok_shape⟩
  · intro h1 h2
    constructor
    · simp [threadAfterEndSynthesis, h1, h2]
    · simp [threadAfterEndSynthesis, h1, h2]
  · intro h
    rcases h with h | h <;> simp [threadAfterEndSynthesis, h]

/-- Witness for C5 at the sample thread (both end fields null) and at a
thread with an explicit unregister time (left untouched). -/
theorem end_synthesis_witness :
    threadAfterEndSynthesis 1 sampleThread =
      { sampleThread with
        unregisterTime := some (getTimeRangeForThread sampleThread 1).endT }
    ∧ (threadAfterEndSynthesis 1 sampleThread).unregisterTime ≠ none
    ∧ threadAfterEndSynthesis 1 sampleMergedThreadA = sampleMergedThreadA :=
  ⟨((end_synthesis.1 1 sampleThread).1 rfl rfl).1,
   ((end_synthesis.1 1 sampleThread).1 rfl rfl).2,
   (end_synthesis.1 1 sampleMergedThreadA).2 (Or.inr (by decide))⟩

/-- The end-synthesis step does not change the samples table. -/
theorem threadAfterEndSynthesis_samples (interval : ℚ) (t : Thread) :
    (threadAfterEndSynthesis interval t).samples = t.samples := by
  rw [threadAfterEndSynthesis]; split <;> rfl

/-- After the timestamp shift, a non-empty sample stream starts at 0. -/
theorem threadAfterTimeShift_head (t : Thread) (h : t.samples.time ≠ []) :
    (threadAfterTimeShift t).samples.time.headD 1 = 0 := by
  cases ht : t.samples.time with
  | nil => exact absurd ht h
  | cons x xs =>
    simp [threadAfterTimeShift, adjustSampleTimestamps, ht, add_neg_cancel]

/-- Every thread accumulated by the merge loop is produced by the
per-thread pipeline ending in timestamp shift and end synthesis. -/
theorem mergeLoop_threads_shape (profiles : List Profile)
    (tms : List TranslationMap) :
    ∀ (states : List ProfileSpecificState) (i : Nat) (acc : MergeAccum),
      mergeLoop profiles tms i states = .ok acc →
      ∀ t ∈ acc.threads, ∃ (interval : ℚ) (u : Thread),
        t = threadAfterEndSynthesis interval (threadAfterTimeShift u) := by
  intro states
  induction states with
  | nil =>
    intro i acc h t ht
    rw [mergeLoop] at h
    simp only [Except.ok.injEq] at h
    subst h
    simp at ht
  | cons ps rest ih =>
    intro i acc h t ht
    rw [mergeLoop] at h
    split at h
    · exact absurd h (by simp)
    next sel hsel =>
      split at h
      · exact absurd h (by simp)
      next profile hp =>
        split at h
        · exact absurd h (by simp)
        next thread hth =>
          split at h
          · exact absurd h (by simp)
          next mt hm =>
            split at h
            · exact absurd h (by simp)
            next acc2 hrest =>
              simp only [Except.ok.injEq] at h
              subst h
              simp only [List.mem_cons] at ht
              rcases ht with rfl | ht2
              · obtain ⟨u, hu⟩ := mergeThreadForProfile_ok_shape _ _ _ _ _ _ hm
                exact ⟨profile.meta.interval, u, hu⟩
              · exact ih (i + 1) acc2 hrest t ht2

/-- Inversion of a successful merge: the loop succeeded and the result
profile is assembled from its accumulator and the merged categories. -/
theorem mergeProfiles_ok_inv (profiles : List Profile)
    (states : List ProfileSpecificState) (r : MergeResult)
    (h : mergeProfiles profiles states = .ok r) :
    ∃ acc, mergeLoop profiles
        (mergeCategories (profiles.map (fun p => p.meta.categories))).2 0 states =
          .ok acc
      ∧ r.profile.threads = acc.threads
      ∧ r.profile.meta.interval = jsMinList (profiles.map (fun p => p.meta.interval))
      ∧ r.profile.meta.categories =
          (mergeCategories (profiles.map (fun p => p.meta.categories))).1
      ∧ r.transformStacks = acc.transformStacks
      ∧ r.implementationFilters = acc.implementationFilters := by
  simp only [mergeProfiles] at h
  cases hloop : mergeLoop profiles
      (mergeCategories (profiles.map (fun p => p.meta.categories))).2 0 states with
  | error e => rw [hloop] at h; exact absurd h (by simp)
  | ok acc =>
    rw [hloop] at h
    simp only [Except.ok.injEq] at h
    subst h
    exact ⟨acc, rfl, rfl, rfl, rfl, rfl, rfl⟩

/-- C3: the timestamp shift adds the negation of the thread's own first
sample time (taken after any range filtering, since the shift is applied
to the already filtered thread) to all sample times, marker times,
`registerTime` and `processStartupTime`, maps the two nullable end fields
through the same offset (so null stays null), and leaves the first sample
of every merged thread at time 0. -/
theorem start_alignment :
    (∀ t : Thread,
      (threadAfterTimeShift t).samples.time =
        t.samples.time.map (fun x => x + -(t.samples.time.headD 0))
      ∧ (threadAfterTimeShift t).markers.time =
        t.markers.time.map (fun x => x + -(t.samples.time.headD 0))
      ∧ (threadAfterTimeShift t).registerTime =
        t.registerTime + -(t.samples.time.headD 0)
      ∧ (threadAfterTimeShift t).processStartupTime =
        t.processStartupTime + -(t.samples.time.headD 0)
      ∧ (threadAfterTimeShift t).processShutdownTime =
        t.processShutdownTime.map (fun x => x + -(t.samples.time.headD 0))
      ∧ (threadAfterTimeShift t).unregisterTime =
        t.unregisterTime.map (fun x => x + -(t.samples.time.headD 0))
      ∧ (t.samples.time ≠ [] → (threadAfterTimeShift t).samples.time.headD 1 = 0))
    ∧ (∀ (profiles : List Profile) (states : List ProfileSpecificState)
        (r : MergeResult), mergeProfiles profiles states = .ok r →
        ∀ t ∈ r.profile.threads, t.samples.time ≠ [] →
          t.samples.time.headD 1 = 0) := by
  constructor
  · intro t
    exact ⟨rfl, rfl, rfl, rfl, rfl, rfl, threadAfterTimeShift_head t⟩
  · intro profiles states r h t ht hne
    obtain ⟨acc, hloop, hthreads, _⟩ := mergeProfiles_ok_inv profiles states r h
    rw [hthreads] at ht
    obtain ⟨iv, u, rfl⟩ :=
      mergeLoop_threads_shape profiles _ states 0 acc hloop t ht
    rw [threadAfterEndSynthesis_samples] at hne ⊢
    have hu : u.samples.time ≠ [] := by
      simpa [threadAfterTimeShift, adjustSampleTimestamps] using hne
    exact threadAfterTimeShift_head u hu

/-- Witness for C3: the sample thread and a thread of the evaluated
sample merge both start at time 0. -/
theorem start_alignment_witness :
    (threadAfterTimeShift sampleThread).samples.time.headD 1 = 0
    ∧ sampleMergedThreadA.samples.time.headD 1 = 0 := by
  constructor
  · exact (start_alignment.1 sampleThread).2.2.2.2.2.2 (by decide)
  · exact start_alignment.2 [sampleProfileA, sampleProfileB] [sampleState, sampleState]
      _ sampleMerge_eval sampleMergedThreadA (by decide) (by decide)

/-- `adjustCategories` only ever fails with a category-not-found error. -/
theorem adjustCategories_error_shape :
    ∀ (cats : List Nat) (tm : TranslationMap) (e : MergeError),
      adjustCategories cats tm = .error e → ∃ c, e = .categoryNotFound c := by
  intro cats
  induction cats with
  | nil => intro tm e h; rw [adjustCategories] at h; exact absurd h (by simp)
  | cons c rest ih =>
    intro tm e h
    rw [adjustCategories] at h
    split at h
    · simp only [Except.error.injEq] at h; exact ⟨c, h.symm⟩
    · split at h
      next e2 he2 =>
        simp only [Except.error.injEq] at h
        subst h
        exact ih tm e2 he2
      · exact absurd h (by simp)

/-- `adjustNullableCategories` only ever fails with a category-not-found
error. -/
theorem adjustNullableCategories_error_shape :
    ∀ (cats : List (Option Nat)) (tm : TranslationMap) (e : MergeError),
      adjustNullableCategories cats tm = .error e → ∃ c, e = .categoryNotFound c := by
  intro cats
  induction cats with
  | nil => intro tm e h; rw [adjustNullableCategories] at h; exact absurd h (by simp)
  | cons oc rest ih =>
    intro tm e h
    cases oc with
    | none =>
      rw [adjustNullableCategories] at h
      split at h
      next e2 he2 =>
        simp only [Except.error.injEq] at h
        subst h
        exact ih tm e2 he2
      · exact absurd h (by simp)
    | some c =>
      rw [adjustNullableCategories] at h
      split at h
      · simp only [Except.error.injEq] at h; exact ⟨c, h.symm⟩
      · split at h
        next e2 he2 =>
          simp only [Except.error.injEq] at h
          subst h
          exact ih tm e2 he2
        · exact absurd h (by simp)

/-- The per-thread pipeline only ever fails with a category-not-found
error. -/
theorem mergeThreadForProfile_error_shape (i : Nat) (profile : Profile)
    (ps : ProfileSpecificState) (tm : TranslationMap) (thread : Thread)
    (e : MergeError) (h : mergeThreadForProfile i profile ps tm thread = .error e) :
    ∃ c, e = .categoryNotFound c := by
  rw [mergeThreadForProfile] at h
  split at h
  next e2 he2 =>
    simp only [Except.error.injEq] at h
    subst h
    exact adjustCategories_error_shape _ _ _ he2
  · split at h
    next e2 he2 =>
      simp only [Except.error.injEq] at h
      subst h
      exact adjustNullableCategories_error_shape _ _ _ he2
    · exact absurd h (by simp)

/-- A successful merge loop implies every processed view state had a
selected thread. -/
theorem mergeLoop_ok_selected (profiles : List Profile)
    (tms : List TranslationMap) :
    ∀ (states : List ProfileSpecificState) (i : Nat) (acc : MergeAccum),
      mergeLoop profiles tms i states = .ok acc →
      ∀ ps ∈ states, ps.selectedThread.isSome := by
  intro states
  induction states with
  | nil => intro i acc _ ps hps; simp at hps
  | cons ps0 rest ih =>
    intro i acc h ps hps
    rw [mergeLoop] at h
    split at h
    · exact absurd h (by simp)
    next sel hsel =>
      split at h
      · exact absurd h (by simp)
      next profile hp =>
        split at h
        · exact absurd h (by simp)
        next thread hth =>
          split at h
          · exact absurd h (by simp)
          next mt hm =>
            split at h
            · exact absurd h (by simp)
            next acc2 hrest =>
              rcases List.mem_cons.mp hps with rfl | hps2
              · simp [hsel]
              · exact ih (i + 1) acc2 hrest ps hps2

/-- When every view state has a selected thread, the merge loop never
raises the caller-contract error. -/
theorem mergeLoop_not_noSelectedThread (profiles : List Profile)
    (tms : List TranslationMap) :
    ∀ (states : List ProfileSpecificState) (i : Nat),
      (∀ ps ∈ states, ps.selectedThread.isSome) →
      ∀ j, mergeLoop profiles tms i states ≠ .error (.noSelectedThread j) := by
  intro states
  induction states with
  | nil => intro i _ j hcon; rw [mergeLoop] at hcon; exact absurd hcon (by simp)
  | cons ps0 rest ih =>
    intro i hall j hcon
    rw [mergeLoop] at hcon
    split at hcon
    next hsel =>
      have := hall ps0 (by simp)
      rw [hsel] at this
      simp at this
    next sel hsel =>
      split at hcon
      · simp at hcon
      next profile hp =>
        split at hcon
        · simp at hcon
        next thread hth =>
          split at hcon
          next e he =>
            obtain ⟨c, rfl⟩ := mergeThreadForProfile_error_shape _ _ _ _ _ _ he
            simp at hcon
          next mt hm =>
            split at hcon
            next e he =>
              simp only [Except.error.injEq] at hcon
              subst hcon
              exact ih (i + 1) (fun p hp2 => hall p (by simp [hp2])) j he
            · exact absurd hcon (by simp)

/-- When every view state has a selected thread, `mergeProfiles` never
fails with the caller-contract error. -/
theorem mergeProfiles_not_noSelectedThread (profiles : List Profile)
    (states : List ProfileSpecificState)
    (hall : ∀ ps ∈ states, ps.selectedThread.isSome) :
    ∀ j, mergeProfiles profiles states ≠ .error (.noSelectedThread j) := by
  intro j hcon
  simp only [mergeProfiles] at hcon
  split at hcon
  next e he =>
    simp only [Except.error.injEq] at hcon
    subst hcon
    exact mergeLoop_not_noSelectedThread profiles _ states 0 hall j he
  · exact absurd hcon (by simp)

/-- C7: a view state with a null selected thread makes the merge fail
(no output profile); under the claimed preconditions the caller-contract
error is never raised; and on a concrete null-selection input the error
names the offending input index. -/
theorem precondition_enforcement :
    (∀ (profiles : List Profile) (states : List ProfileSpecificState),
      (∃ ps ∈ states, ps.selectedThread = none) →
      ∃ e, mergeProfiles profiles states = .error e)
    ∧ (∀ (profiles : List Profile) (states : List ProfileSpecificState),
      profiles.length = states.length →
      (∀ ps ∈ states, ps.selectedThread.isSome) →
      ∀ j, mergeProfiles profiles states ≠ .error (.noSelectedThread j))
    ∧ mergeProfiles [sampleProfileA] [sampleStateNoSelection] =
        .error (.noSelectedThread 0) := by
  refine ⟨?_, fun profiles states _ hall => mergeProfiles_not_noSelectedThread
    profiles states hall, rfl⟩
  intro profiles states ⟨ps, hmem, hnone⟩
  cases hm : mergeProfiles profiles states with
  | error e => exact ⟨e, rfl⟩
  | ok r =>
    obtain ⟨acc, hloop, _⟩ := mergeProfiles_ok_inv profiles states r hm
    have := mergeLoop_ok_selected profiles _ states 0 acc hloop ps hmem
    rw [hnone] at this
    simp at this

/-- Witness for C7: the sample null-selection input fails, and the sample
valid input never raises the caller-contract error. -/
theorem precondition_enforcement_witness :
    (∃ e, mergeProfiles [sampleProfileA] [sampleStateNoSelection] = .error e)
    ∧ mergeProfiles [sampleProfileA] [sampleState] ≠
        .error (.noSelectedThread 0) :=
  ⟨precondition_enforcement.1 [sampleProfileA] [sampleStateNoSelection]
      ⟨sampleStateNoSelection, by simp, rfl⟩,
   precondition_enforcement.2.1 [sampleProfileA] [sampleState] rfl
      (by decide) 0⟩

/-- C10: the only view-state validation is the null check on the selected
thread: with every selected thread non-null no caller-contract error is
ever raised, and a non-null but out-of-bounds selection proceeds into the
remapping step with a missing thread value (the embedded `TypeError`)
instead of failing with the specified caller-contract error. -/
theorem unguarded_thread_lookup :
    (∀ (profiles : List Profile) (states : List ProfileSpecificState),
      (∀ ps ∈ states, ps.selectedThread.isSome) →
      ∀ j, mergeProfiles profiles states ≠ .error (.noSelectedThread j))
    ∧ mergeProfiles [sampleProfileA] [sampleStateOutOfBounds] =
        .error (.missingThread 0) :=
  ⟨mergeProfiles_not_noSelectedThread, rfl⟩

/-- Witness for C10: the out-of-bounds selection does not raise the
caller-contract error (it raises the missing-thread error instead). -/
theorem unguarded_thread_lookup_witness :
    mergeProfiles [sampleProfileA] [sampleStateOutOfBounds] ≠
      .error (.noSelectedThread 0) :=
  unguarded_thread_lookup.1 [sampleProfileA] [sampleStateOutOfBounds]
    (by decide) 0

/-- Folding `min` never exceeds its initial accumulator. -/
theorem foldl_min_le_init (l : List ℚ) : ∀ a : ℚ, l.foldl min a ≤ a := by
  induction l with
  | nil => simp
  | cons x xs ih =>
    intro a
    simp only [List.foldl_cons]
    exact le_trans (ih (min a x)) (min_le_left a x)

/-- Folding `min` is a lower bound of the folded list. -/
theorem foldl_min_le_mem (l : List ℚ) : ∀ (a : ℚ), ∀ x ∈ l, l.foldl min a ≤ x := by
  induction l with
  | nil => simp
  | cons y ys ih =>
    intro a x hx
    simp only [List.foldl_cons]
    rcases List.mem_cons.mp hx with rfl | hx2
    · exact le_trans (foldl_min_le_init ys (min a x)) (min_le_right a x)
    · exact ih (min a y) x hx2

/-- Folding `min` returns the accumulator or a member of the list. -/
theorem foldl_min_mem (l : List ℚ) : ∀ a : ℚ, l.foldl min a = a ∨ l.foldl min a ∈ l := by
  induction l with
  | nil => simp
  | cons y ys ih =>
    intro a
    simp only [List.foldl_cons]
    rcases ih (min a y) with heq | hmem
    · rw [heq]
      rcases min_choice a y with h | h
    
      · left; exact h
      · right; rw [h]; exact List.mem_cons_self y ys
    · right; exact List.mem_cons_of_mem y hmem

/-- `jsMinList` of a non-empty list is a member of the list. -/
theorem jsMinList_mem (l : List ℚ) (h : l ≠ []) : jsMinList l ∈ l := by
  cases l with
  | nil => exact absurd rfl h
  | cons x xs =>
    rw [jsMinList]
    rcases foldl_min_mem xs x with heq | hmem
    · rw [heq]; exact List.mem_cons_self x xs
    · exact List.mem_cons_of_mem x hmem

/-- `jsMinList` is a lower bound of its list. -/
theorem jsMinList_le (l : List ℚ) : ∀ x ∈ l, jsMinList l ≤ x := by
  cases l with
  | nil => simp
  | cons y ys =>
    intro x hx
    rw [jsMinList]
    rcases List.mem_cons.mp hx with rfl | hx2
    · exact foldl_min_le_init ys x
    · exact foldl_min_le_mem ys y x hx2

/-- C9: the merged profile's interval is the minimum of the input
intervals (it is one of them and a lower bound of all of them), and the
`Math.min` embedding applied to intervals `1.0` and `0.5` yields `0.5`. -/
theorem interval_conservatism :
    (∀ (profiles : List Profile) (states : List ProfileSpecificState)
      (r : MergeResult), mergeProfiles profiles states = .ok r → profiles ≠ [] →
      r.profile.meta.interval ∈ profiles.map (fun p => p.meta.interval)
      ∧ ∀ p ∈ profiles, r.profile.meta.interval ≤ p.meta.interval)
    ∧ jsMinList [1, 1/2] = 1/2 := by
  constructor
  · intro profiles states r h hne
    obtain ⟨acc, hloop, hthreads, hint, hrest⟩ := mergeProfiles_ok_inv profiles states r h
    rw [hint]
    constructor
    · exact jsMinList_mem _ (by simpa using hne)
    · intro p hp
      exact jsMinList_le _ _ (List.mem_map_of_mem _ hp)
  · rw [jsMinList]
    simp only [List.foldl_cons, List.foldl_nil]
    rw [min_eq_right (by norm_num)]

/-- Witness for C9: the evaluated sample merge (intervals 1 and 1/2)
yields an interval no larger than either input's. -/
theorem interval_conservatism_witness :
    ({ profile := { meta := { interval := 1/2, categories := [] },
                    threads := [sampleMergedThreadA, sampleMergedThreadB] },
       transformStacks := [some "ts", some "ts"],
       implementationFilters := ["combined", "combined"] } :
        MergeResult).profile.meta.interval ≤ sampleProfileA.meta.interval ∧
    ({ profile := { meta := { interval := 1/2, categories := [] },
                    threads := [sampleMergedThreadA, sampleMergedThreadB] },
       transformStacks := [some "ts", some "ts"],
       implementationFilters := ["combined", "combined"] } :
        MergeResult).profile.meta.interval ≤ sampleProfileB.meta.interval :=
  ⟨(interval_conservatism.1 [sampleProfileA, sampleProfileB] [sampleState, sampleState]
      _ sampleMerge_eval (by simp)).2 sampleProfileA (by simp),
   (interval_conservatism.1 [sampleProfileA, sampleProfileB] [sampleState, sampleState]
      _ sampleMerge_eval (by simp)).2 sampleProfileB (by simp)⟩

/-- A lookup below all keys of the front part of an association list
falls through to the back part. -/
theorem tmGet_append_of_lt (tm rest : TranslationMap) (k : Nat)
    (h : ∀ pr ∈ tm, pr.1 < k) : tmGet (tm ++ rest) k = tmGet rest k := by
  induction tm with
  | nil => simp
  | cons pr tm2 ih =>
    have hpr : pr.1 < k := h pr (by simp)
    rw [List.cons_append, tmGet]
    rw [if_neg (by omega)]
    exact ih (fun q hq => h q (by simp [hq]))

/-- A successful lookup is preserved by appending entries. -/
theorem tmGet_append_of_some (tm rest : TranslationMap) (k v : Nat)
    (h : tmGet tm k = some v) : tmGet (tm ++ rest) k = some v := by
  induction tm with
  | nil => rw [tmGet] at h; exact absurd h (by simp)
  | cons pr tm2 ih =>
    rw [tmGet] at h
    rw [List.cons_append, tmGet]
    split at h
    next heq => rw [if_pos heq]; exact h
    next heq => rw [if_neg heq]; exact ih h

/-- A value returned by `insGet` is a value of the association list. -/
theorem insGet_mem (ins : List (String × Nat)) (s : String) (v : Nat)
    (h : insGet ins s = some v) : ∃ k, (k, v) ∈ ins := by
  induction ins with
  | nil => rw [insGet] at h; exact absurd h (by simp)
  | cons pr rest ih =>
    rw [insGet] at h
    split at h
    · simp only [Option.some.injEq] at h
      exact ⟨pr.1, by rw [← h, Prod.mk.eta]; exact List.mem_cons_self pr rest⟩
    · obtain ⟨k, hk⟩ := ih h
      exact ⟨k, by simp [hk]⟩

/-- Structural specification of the inner category-merge loop: the merged
list is only extended, the name map stays bounded by the merged length,
earlier translation entries are preserved, and every index of this input
is mapped to a value below the merged length. -/
theorem mergeCategoriesInner_spec (categories : CategoryList) :
    ∀ (i : Nat) (nc : CategoryList) (ins : List (String × Nat)) (tm : TranslationMap),
    (∀ pr ∈ ins, pr.2 < nc.length) →
    (∀ pr ∈ tm, pr.1 < i) →
    (∃ ext, (mergeCategoriesInner categories i nc ins tm).1 = nc ++ ext)
    ∧ (∀ pr ∈ (mergeCategoriesInner categories i nc ins tm).2.1,
        pr.2 < (mergeCategoriesInner categories i nc ins tm).1.length)
    ∧ (∀ k v, tmGet tm k = some v →
        tmGet (mergeCategoriesInner categories i nc ins tm).2.2 k = some v)
    ∧ (∀ j, j < categories.length →
        ∃ v, tmGet (mergeCategoriesInner categories i nc ins tm).2.2 (i + j) = some v
          ∧ v < (mergeCategoriesInner categories i nc ins tm).1.length) := by
  induction categories with
  | nil =>
    intro i nc ins tm hins htm
    simp only [mergeCategoriesInner]
    exact ⟨⟨[], by simp⟩, hins, fun k v h => h, fun j hj => absurd hj (by simp)⟩
  | cons c rest ih =>
    intro i nc ins tm hins htm
    simp only [mergeCategoriesInner]
    cases hg : insGet ins c.name with
    | some idx =>
      simp only [hg]
      have hidx : idx < nc.length := by
        obtain ⟨k, hk⟩ := insGet_mem ins c.name idx hg
        exact hins (k, idx) hk
      have htm2 : ∀ pr ∈ tm ++ [(i, idx)], pr.1 < i + 1 := by
        intro pr hpr
        rcases List.mem_append.mp hpr with h1 | h1
        · exact Nat.lt_succ_of_lt (htm pr h1)
        · rw [List.mem_singleton] at h1
          subst h1
          exact Nat.lt_succ_self i
      obtain ⟨⟨ext, hext⟩, hins2, hpres, hdom⟩ :=
        ih (i + 1) nc ins (tm ++ [(i, idx)]) hins htm2
      refine ⟨⟨ext, hext⟩, hins2, ?_, ?_⟩
      · intro k v hkv
        exact hpres k v (tmGet_append_of_some tm [(i, idx)] k v hkv)
      · intro j hj
        cases j with
        | zero =>
          refine ⟨idx, ?_, ?_⟩
          · apply hpres
            rw [Nat.add_zero, tmGet_append_of_lt tm [(i, idx)] i htm]
            simp [tmGet]
          · rw [hext]
            simp only [List.length_append]
            omega
        | succ j2 =>
          rw [show i + (j2 + 1) = (i + 1) + j2 by omega]
          exact hdom j2 (by simpa using hj)
    | none =>
      simp only [hg]
      have htm2 : ∀ pr ∈ tm ++ [(i, nc.length)], pr.1 < i + 1 := by
        intro pr hpr
        rcases List.mem_append.mp hpr with h1 | h1
        · exact Nat.lt_succ_of_lt (htm pr h1)
        · rw [List.mem_singleton] at h1
          subst h1
          exact Nat.lt_succ_self i
      have hins2 : ∀ pr ∈ (c.name, nc.length) :: ins, pr.2 < (nc ++ [c]).length := by
        intro pr hpr
        rcases List.mem_cons.mp hpr with rfl | h1
        · simp
        · have := hins pr h1
          simp only [List.length_append, List.length_singleton]
          omega
      obtain ⟨⟨ext, hext⟩, hins3, hpres, hdom⟩ :=
        ih (i + 1) (nc ++ [c]) ((c.name, nc.length) :: ins)
          (tm ++ [(i, nc.length)]) hins2 htm2
      refine ⟨⟨[c] ++ ext, by rw [hext, List.append_assoc]⟩, hins3, ?_, ?_⟩
      · intro k v hkv
        exact hpres k v (tmGet_append_of_some tm [(i, nc.length)] k v hkv)
      · intro j hj
        cases j with
        | zero =>
          refine ⟨nc.length, ?_, ?_⟩
          · apply hpres
            rw [Nat.add_zero, tmGet_append_of_lt tm [(i, nc.length)] i htm]
            simp [tmGet]
          · rw [hext]
            simp only [List.length_append, List.length_singleton]
            omega
        | succ j2 =>
          rw [show i + (j2 + 1) = (i + 1) + j2 by omega]
          exact hdom j2 (by simpa using hj)

/-- Structural specification of the outer category-merge loop: the merged
list only grows, there is one translation map per input, and every index
of every input's taxonomy is mapped below the final merged length. -/
theorem mergeCategoriesOuter_spec (lists : List CategoryList) :
    ∀ (nc : CategoryList) (ins : List (String × Nat)),
    (∀ pr ∈ ins, pr.2 < nc.length) →
    (∃ ext, (mergeCategoriesOuter lists nc ins).1 = nc ++ ext)
    ∧ (mergeCategoriesOuter lists nc ins).2.length = lists.length
    ∧ (∀ (k : Nat) (cats : CategoryList), lists[k]? = some cats →
        ∀ j, j < cats.length →
        ∃ v, tmGet ((mergeCategoriesOuter lists nc ins).2.getD k []) j = some v
          ∧ v < (mergeCategoriesOuter lists nc ins).1.length) := by
  induction lists with
  | nil =>
    intro nc ins hins
    simp only [mergeCategoriesOuter]
    exact ⟨⟨[], by simp⟩, rfl, fun k cats hk => by simp at hk⟩
  | cons cats0 rest ih =>
    intro nc ins hins
    simp only [mergeCategoriesOuter]
    obtain ⟨⟨ext1, hext1⟩, hins1, hpres1, hdom1⟩ :=
      mergeCategoriesInner_spec cats0 0 nc ins [] hins (by simp)
    obtain ⟨⟨ext2, hext2⟩, hlen2, hdom2⟩ :=
      ih (mergeCategoriesInner cats0 0 nc ins []).1
        (mergeCategoriesInner cats0 0 nc ins []).2.1 hins1
    refine ⟨⟨ext1 ++ ext2, ?_⟩, ?_, ?_⟩
    · rw [hext2, hext1, List.append_assoc]
    · simp [hlen2]
    · intro k cats hk j hj
      cases k with
      | zero =>
        simp only [List.getElem?_cons_zero, Option.some.injEq] at hk
        subst hk
        obtain ⟨v, hv, hvlt⟩ := hdom1 j hj
        refine ⟨v, by simpa using hv, ?_⟩
        calc v < (mergeCategoriesInner cats0 0 nc ins []).1.length := hvlt
          _ ≤ (mergeCategoriesOuter rest (mergeCategoriesInner cats0 0 nc ins []).1
                (mergeCategoriesInner cats0 0 nc ins []).2.1).1.length := by
              rw [hext2]; simp
      | succ k2 =>
        simp only [List.getElem?_cons_succ] at hk
        obtain ⟨v, hv, hvlt⟩ := hdom2 k2 cats hk j hj
        exact ⟨v, by simpa using hv, hvlt⟩

/-- Every value of a successful `adjustCategories` output is the image of
an input entry through the translation map. -/
theorem adjustCategories_ok_mem :
    ∀ (cats : List Nat) (tm : TranslationMap) (out : List Nat),
      adjustCategories cats tm = .ok out →
      ∀ x ∈ out, ∃ c ∈ cats, tmGet tm c = some x := by
  intro cats
  induction cats with
  | nil =>
    intro tm out h x hx
    rw [adjustCategories] at h
    simp only [Except.ok.injEq] at h
    subst h
    simp at hx
  | cons c rest ih =>
    intro tm out h x hx
    rw [adjustCategories] at h
    split at h
    · exact absurd h (by simp)
    next v hv =>
      split at h
      · exact absurd h (by simp)
      next others hothers =>
        simp only [Except.ok.injEq] at h
        subst h
        rcases List.mem_cons.mp hx with rfl | hx2
        · exact ⟨c, by simp, hv⟩
        · obtain ⟨c2, hc2, hc2v⟩ := ih tm others hothers x hx2
          exact ⟨c2, by simp [hc2], hc2v⟩

/-- Every non-null value of a successful `adjustNullableCategories`
output is the image of a non-null input entry through the translation
map. -/
theorem adjustNullableCategories_ok_mem :
    ∀ (cats : List (Option Nat)) (tm : TranslationMap) (out : List (Option Nat)),
      adjustNullableCategories cats tm = .ok out →
      ∀ x : Nat, some x ∈ out → ∃ c : Nat, some c ∈ cats ∧ tmGet tm c = some x := by
  intro cats
  induction cats with
  | nil =>
    intro tm out h x hx
    rw [adjustNullableCategories] at h
    simp only [Except.ok.injEq] at h
    subst h
    simp at hx
  | cons oc rest ih =>
    intro tm out h x hx
    cases oc with
    | none =>
      rw [adjustNullableCategories] at h
      split at h
      · exact absurd h (by simp)
      next others hothers =>
        simp only [Except.ok.injEq] at h
        subst h
        rcases List.mem_cons.mp hx with heq | hx2
        · exact absurd heq (by simp)
        · obtain ⟨c2, hc2, hc2v⟩ := ih tm others hothers x hx2
          exact ⟨c2, by simp [hc2], hc2v⟩
    | some c =>
      rw [adjustNullableCategories] at h
      split at h
      · exact absurd h (by simp)
      next v hv =>
        split at h
        · exact absurd h (by simp)
        next others hothers =>
          simp only [Except.ok.injEq] at h
          subst h
          rcases List.mem_cons.mp hx with heq | hx2
          · simp only [Option.some.injEq] at heq
            subst heq
            exact ⟨c, by simp, hv⟩
          · obtain ⟨c2, hc2, hc2v⟩ := ih tm others hothers x hx2
            exact ⟨c2, by simp [hc2], hc2v⟩

/-- The range-filtering step does not change the stack or frame tables. -/
theorem threadAfterRange_tables (profile : Profile) (ps : ProfileSpecificState)
    (t : Thread) :
    (threadAfterRange profile ps t).stackTable = t.stackTable
    ∧ (threadAfterRange profile ps t).frameTable = t.frameTable := by
  cases h : ps.committedRanges.bind List.getLast? with
  | none => exact ⟨by simp [threadAfterRange, h], by simp [threadAfterRange, h]⟩
  | some r =>
    exact ⟨by simp [threadAfterRange, h, filterThreadSamplesToRange],
           by simp [threadAfterRange, h, filterThreadSamplesToRange]⟩

/-- The end-synthesis step does not change the stack or frame tables. -/
theorem threadAfterEndSynthesis_tables (interval : ℚ) (t : Thread) :
    (threadAfterEndSynthesis interval t).stackTable = t.stackTable
    ∧ (threadAfterEndSynthesis interval t).frameTable = t.frameTable := by
  constructor <;> (rw [threadAfterEndSynthesis]; split <;> rfl)

/-- The identity-rewriting step does not change the stack or frame
tables. -/
theorem threadAfterIdentity_tables (i : Nat) (t : Thread) :
    (threadAfterIdentity i t).stackTable = t.stackTable
    ∧ (threadAfterIdentity i t).frameTable = t.frameTable :=
  ⟨rfl, rfl⟩

/-- The timestamp-shift step does not change the stack or frame tables. -/
theorem threadAfterTimeShift_tables (t : Thread) :
    (threadAfterTimeShift t).stackTable = t.stackTable
    ∧ (threadAfterTimeShift t).frameTable = t.frameTable :=
  ⟨rfl, rfl⟩

/-- A successfully merged thread's stack and frame category columns are
exactly the remapped columns of the input thread. -/
theorem mergeThreadForProfile_ok_tables (i : Nat) (profile : Profile)
    (ps : ProfileSpecificState) (tm : TranslationMap) (thread t' : Thread)
    (h : mergeThreadForProfile i profile ps tm thread = .ok t') :
    ∃ stackCats frameCats,
      adjustCategories thread.stackTable.category tm = .ok stackCats
      ∧ adjustNullableCategories thread.frameTable.category tm = .ok frameCats
      ∧ t'.stackTable.category = stackCats
      ∧ t'.frameTable.category = frameCats := by
  rw [mergeThreadForProfile] at h
  split at h
  · exact absurd h (by simp)
  next stackCats hstack =>
    split at h
    · exact absurd h (by simp)
    next frameCats hframe =>
      simp only [Except.ok.injEq] at h
      subst h
      refine ⟨stackCats, frameCats, hstack, hframe, ?_, ?_⟩
      · rw [(threadAfterEndSynthesis_tables _ _).1, (threadAfterTimeShift_tables _).1,
          (threadAfterIdentity_tables _ _).1, (threadAfterRange_tables _ _ _).1]
      · rw [(threadAfterEndSynthesis_tables _ _).2, (threadAfterTimeShift_tables _).2,
          (threadAfterIdentity_tables _ _).2, (threadAfterRange_tables _ _ _).2]

/-- When the translation maps are total and bounded for every input
profile, every thread accumulated by the merge loop satisfies the
category bound of the merged list. -/
theorem mergeLoop_threads_catOk (profiles : List Profile)
    (tms : List TranslationMap) (N : Nat)
    (htms : ∀ (k : Nat) (profile : Profile), profiles[k]? = some profile →
      ∀ j, j < profile.meta.categories.length →
        ∃ v, tmGet (tms.getD k []) j = some v ∧ v < N)
    (hprof : ∀ p ∈ profiles, ∀ t ∈ p.threads,
      threadCategoriesOk t p.meta.categories.length) :
    ∀ (states : List ProfileSpecificState) (i : Nat) (acc : MergeAccum),
      mergeLoop profiles tms i states = .ok acc →
      ∀ t ∈ acc.threads, threadCategoriesOk t N := by
  intro states
  induction states with
  | nil =>
    intro i acc h t ht
    rw [mergeLoop] at h
    simp only [Except.ok.injEq] at h
    subst h
    simp at ht
  | cons ps rest ih =>
    intro i acc h t ht
    rw [mergeLoop] at h
    split at h
    · exact absurd h (by simp)
    next sel hsel =>
      split at h
      · exact absurd h (by simp)
      next profile hp =>
        split at h
        · exact absurd h (by simp)
        next thread hth =>
          split at h
          · exact absurd h (by simp)
          next mt hm =>
            split at h
            · exact absurd h (by simp)
            next acc2 hrest =>
              simp only [Except.ok.injEq] at h
              subst h
              simp only [List.mem_cons] at ht
              rcases ht with rfl | ht2
              · obtain ⟨stackCats, frameCats, hstack, hframe, hts, htf⟩ :=
                  mergeThreadForProfile_ok_tables i profile ps (tms.getD i []) thread t hm
                obtain ⟨hsok, hfok⟩ := hprof profile (List.getElem?_mem hp)
                  thread (List.getElem?_mem hth)
                constructor
                · intro c hc
                  rw [hts] at hc
                  obtain ⟨c0, hc0, hc0v⟩ := adjustCategories_ok_mem _ _ _ hstack c hc
                  obtain ⟨v, hv, hvlt⟩ := htms i profile hp c0 (hsok c0 hc0)
                  rw [hv] at hc0v
                  simp only [Option.some.injEq] at hc0v
                  omega
                · intro c hc
                  rw [htf] at hc
                  obtain ⟨c0, hc0, hc0v⟩ :=
                    adjustNullableCategories_ok_mem _ _ _ hframe c hc
                  obtain ⟨v, hv, hvlt⟩ := htms i profile hp c0 (hfok c0 hc0)
                  rw [hv] at hc0v
                  simp only [Option.some.injEq] at hc0v
                  omega
              · exact ih (i + 1) acc2 hrest t ht2

/-- C8: whenever `mergeProfiles` returns successfully and each input
profile satisfied the category-reference invariant for its own category
list, every output thread's stack category indices and non-null frame
category indices are valid indices into the merged category list. -/
theorem category_reference_invariant :
    ∀ (profiles : List Profile) (states : List ProfileSpecificState)
      (r : MergeResult),
      mergeProfiles profiles states = .ok r →
      (∀ p ∈ profiles, ∀ t ∈ p.threads,
        threadCategoriesOk t p.meta.categories.length) →
      ∀ t ∈ r.profile.threads,
        threadCategoriesOk t r.profile.meta.categories.length := by
  intro profiles states r h hprof t ht
  obtain ⟨acc, hloop, hthreads, hint, hcats, _⟩ := mergeProfiles_ok_inv profiles states r h
  rw [hthreads] at ht
  rw [hcats]
  obtain ⟨hext, hlen, hdom⟩ :=
    mergeCategoriesOuter_spec (profiles.map (fun p => p.meta.categories)) [] []
      (by simp)
  have htms : ∀ (k : Nat) (profile : Profile), profiles[k]? = some profile →
      ∀ j, j < profile.meta.categories.length →
        ∃ v, tmGet ((mergeCategories
            (profiles.map (fun p => p.meta.categories))).2.getD k []) j = some v
          ∧ v < (mergeCategories (profiles.map (fun p => p.meta.categories))).1.length := by
    intro k profile hk j hj
    have hlk : (profiles.map (fun p => p.meta.categories))[k]? =
        some profile.meta.categories := by
      rw [List.getElem?_map, hk]; rfl
    exact hdom k profile.meta.categories hlk j hj
  exact mergeLoop_threads_catOk profiles
    (mergeCategories (profiles.map (fun p => p.meta.categories))).2
    (mergeCategories (profiles.map (fun p => p.meta.categories))).1.length
    htms hprof states 0 acc hloop t ht

/-- Witness for C8: the first merged sample thread satisfies the bound of
the merged (empty) category list. -/
theorem category_reference_invariant_witness :
    threadCategoriesOk sampleMergedThreadA 0 :=
  category_reference_invariant [sampleProfileA, sampleProfileB]
    [sampleState, sampleState] _ sampleMerge_eval
    (by
      rintro p hp t htp
      fin_cases hp <;>
        simp_all [sampleProfileA, sampleProfileB, sampleThread, threadCategoriesOk])
    sampleMergedThreadA (by decide)
